import Mathlib

/-!
Verification of the windrun match draft-replay reconstruction and
synergy-ranking engine, embedded from `src/pages/Match.tsx`.

JavaScript numbers carried by the API (win rates, statistical shifts,
pickup rates) are modelled as rationals; the one place the code uses a
transcendental function (`Math.log` in `calculateAbilitySynergy`) is
modelled over the reals.  JavaScript `Map`s are modelled as association
lists in insertion order: `Map.set` overwrites, so a lookup takes the
last binding; `Map.forEach` iterates the entries in order.
-/

namespace Windrun

/-- Side of the map a player belongs to (`'radiant' | 'dire'`). -/
inductive Side
  | radiant
  | dire
deriving DecidableEq, Repr

/-- One entry of the draft history (`PickData` in `Match.tsx`). -/
structure Pick where
  abilityId : Int
  pickOrder : Nat
deriving DecidableEq, Repr

/-- The fields of `PlayerData` the draft engine reads: the final hero id and
the final ability list (negative entries are hero innates). -/
structure PlayerData where
  hero : Int
  abilities : List Int
deriving DecidableEq, Repr

/-- One value of the ability-pair stats map (`{winrate, numPicks}`). -/
structure PairStat where
  winrate : ℚ
  numPicks : Nat
deriving DecidableEq, Repr

/-- The static ability lookup fields the engine reads
(`getAbilityById(id)` from the generated static data). -/
structure AbilityData where
  isUltimate : Bool
  hasScepter : Bool
  hasShard : Bool
  ownerHeroId : Option Int
deriving DecidableEq, Repr

/-- One value of the ability-shift stats map. -/
structure ShiftStat where
  killsShift : ℚ
  deathsShift : ℚ
  killAssistShift : ℚ
  gpmShift : ℚ
  xpmShift : ℚ
  dmgShift : ℚ
  healingShift : ℚ
deriving DecidableEq, Repr

/-- One value of the Aghanim stats map after the `useMemo` that divides the
scepter/shard totals by `totalGames` (`abilityAghs` in `MatchPage`). -/
structure AghsRates where
  scepterPickRate : ℚ
  shardPickRate : ℚ
deriving DecidableEq, Repr

/-- Canonical unordered-pair key: `a < b ? a-b : b-a` in the source. -/
def pairKey (a b : Int) : Int × Int :=
  if a < b then (a, b) else (b, a)

/-- All index-ordered pairs `(l[i], l[j])` with `i < j`, in the order the
source's double `for` loop visits them. -/
def pairsOf : List Int → List (Int × Int)
  | [] => []
  | a :: rest => rest.map (fun b => (a, b)) ++ pairsOf rest

/-- Win-rate lookup with the source's default: `abilityWinrates.get(a) ?? 0.5`. -/
def getWr (wr : List (Int × ℚ)) (a : Int) : ℚ :=
  (List.lookup a wr).getD (1 / 2)

/-! ## Ownership Repair (`fixHeroSwaps`) -/

/-- Index of the first swap partner:
`fixedPlayers.find(p => p.hero === innateHeroId && p !== player)`.
Array `find` scans in order, and the only element that is the same object
as `player` is the one at index `i`. -/
def findSwapPartner (players : List PlayerData) (i : Nat) (innateHeroId : Int) : Option Nat :=
  (List.range players.length).find? (fun j =>
    j != i && (players.get? j).map PlayerData.hero == some innateHeroId)

/-- Exchange the ability lists of the players at indices `i` and `j`. -/
def swapAbilities (players : List PlayerData) (i j : Nat) : List PlayerData :=
  match players.get? i, players.get? j with
  | some pa, some pb =>
      (players.set i { pa with abilities := pb.abilities }).set j
        { pb with abilities := pa.abilities }
  | _, _ => players

/-- The body of the `for` loop of `fixHeroSwaps` for one index `i`:
locate the player's negative (hero-innate) entry, and if its magnitude
differs from the player's hero, exchange ability lists with the first
player whose hero matches it. -/
def fixStep (players : List PlayerData) (i : Nat) : List PlayerData :=
  match players.get? i with
  | none => players
  | some player =>
    match player.abilities.find? (fun a => a < 0) with
    | none => players
    | some innate =>
      let innateHeroId := |innate|
      if innateHeroId = player.hero then players
      else
        match findSwapPartner players i innateHeroId with
        | none => players
        | some j => swapAbilities players i j

/-- Ownership Repair: a single pass of `fixStep` over the ten players
(radiant then dire), returning the first five and the rest. -/
def fixHeroSwaps (radiant dire : List PlayerData) : List PlayerData × List PlayerData :=
  let all := radiant ++ dire
  let fixed := (List.range all.length).foldl fixStep all
  (fixed.take 5, fixed.drop 5)

/-! ## Draft Order Reconstructor (`getPickingInfo`) -/

/-- Snake draft turn lookup. Pick number 0 is the not-yet-started sentinel;
for pick `n ≥ 1`, picks are grouped in phases of 10, even phases run
forward (R1 D1 … R5 D5) and odd phases reversed (D5 R5 … D1 R1). -/
def getPickingInfo (pickNum : Nat) : Side × Nat :=
  if pickNum = 0 then (Side.radiant, 0)
  else
    let pickIndex := pickNum - 1
    let phase := pickIndex / 10
    let posInPhase := pickIndex % 10
    if phase % 2 = 0 then
      (if posInPhase % 2 = 0 then Side.radiant else Side.dire, posInPhase / 2)
    else
      (if posInPhase % 2 = 0 then Side.dire else Side.radiant, 4 - posInPhase / 2)

/-- The forward-phase turn order as the specification words it:
seat 0 Radiant, seat 0 Dire, …, seat 4 Radiant, seat 4 Dire. -/
def forwardPhase : List (Side × Nat) :=
  [(Side.radiant, 0), (Side.dire, 0), (Side.radiant, 1), (Side.dire, 1),
   (Side.radiant, 2), (Side.dire, 2), (Side.radiant, 3), (Side.dire, 3),
   (Side.radiant, 4), (Side.dire, 4)]

/-- The reverse-phase turn order as the specification words it:
seat 4 Dire, seat 4 Radiant, …, seat 0 Dire, seat 0 Radiant. -/
def reversePhase : List (Side × Nat) :=
  [(Side.dire, 4), (Side.radiant, 4), (Side.dire, 3), (Side.radiant, 3),
   (Side.dire, 2), (Side.radiant, 2), (Side.dire, 1), (Side.radiant, 1),
   (Side.dire, 0), (Side.radiant, 0)]

/-- The specification's phase-based alternation rule, stated independently
of `getPickingInfo`: group picks into phases of 10 and read the seat off
the forward or reversed phase listing. -/
def pickingPhaseRule (pickNum : Nat) : Side × Nat :=
  if pickNum = 0 then (Side.radiant, 0)
  else
    let pickIndex := pickNum - 1
    let phaseList := if (pickIndex / 10) % 2 = 0 then forwardPhase else reversePhase
    phaseList.getD (pickIndex % 10) (Side.radiant, 0)

/-! ## Draft-State Stepper context and derived data -/

/-- The inputs of the `DraftReplay` component (after `fixHeroSwaps`), plus
the static ability lookup it consults. -/
structure Ctx where
  picks : List Pick
  ignoredSpells : List Int
  radiant : List PlayerData
  dire : List PlayerData
  pairsMap : List ((Int × Int) × PairStat)
  abilityWinrates : List (Int × ℚ)
  abilityShifts : List (Int × ShiftStat)
  abilityAghs : List (Int × AghsRates)
  abilityById : Int → Option AbilityData

/-- Reference to one of the ten players: side plus index within the side. -/
abbrev PlayerRef := Side × Nat

/-- The player a reference denotes, if in range. -/
def playerAt (ctx : Ctx) : PlayerRef → Option PlayerData
  | (Side.radiant, i) => ctx.radiant.get? i
  | (Side.dire, i) => ctx.dire.get? i

/-- Ability ids claimed by the first `s` picks (the `pickedIds` set). -/
def pickedIds (ctx : Ctx) (s : Nat) : List Int :=
  (ctx.picks.take s).map Pick.abilityId

/-- Every ability id in the draft pool: all picks plus ignored spells
(the `allPoolIds` set). -/
def allPoolIds (ctx : Ctx) : List Int :=
  ctx.picks.map Pick.abilityId ++ ctx.ignoredSpells

/-- The `abilityToPlayer` map written as its insertion sequence: radiant
players' abilities first, then dire players', each `Map.set` appended. -/
def a2pAssignments (ctx : Ctx) : List (Int × PlayerRef) :=
  (ctx.radiant.enum.flatMap fun ip =>
    ip.2.abilities.map (fun id => (id, (Side.radiant, ip.1)))) ++
  (ctx.dire.enum.flatMap fun ip =>
    ip.2.abilities.map (fun id => (id, (Side.dire, ip.1))))

/-- Lookup in `abilityToPlayer`: `Map.set` overwrites, so the last binding
for an id wins. -/
def abilityToPlayer (ctx : Ctx) (id : Int) : Option PlayerRef :=
  List.lookup id (a2pAssignments ctx).reverse

/-- One step of the `playerPickedAbilities` loop: append the pick to the
owning player's list if the ability is assigned to a player. -/
def pushPick (ctx : Ctx) (acc : PlayerRef → List (Int × Nat)) (pk : Pick) :
    PlayerRef → List (Int × Nat) :=
  match abilityToPlayer ctx pk.abilityId with
  | none => acc
  | some ref => Function.update acc ref (acc ref ++ [(pk.abilityId, pk.pickOrder)])

/-- Per-player `(id, pickOrder)` lists at step `s`: fold the first `s` picks
through `pushPick` starting from empty lists. -/
def playerPickedAbilities (ctx : Ctx) (s : Nat) : PlayerRef → List (Int × Nat) :=
  (ctx.picks.take s).foldl (pushPick ctx) (fun _ => [])

/-- A player's earliest recorded pick order, `none` standing for the
`Infinity` sentinel: fold over the ability list, taking the first matching
pick's order when it lowers the running minimum. -/
def firstPickOrder (picks : List Pick) (abilities : List Int) : Option Nat :=
  abilities.foldl (fun acc id =>
    match picks.find? (fun pk => pk.abilityId == id) with
    | some pk =>
        match acc with
        | none => some pk.pickOrder
        | some cur => if pk.pickOrder < cur then some pk.pickOrder else some cur
    | none => acc) none

/-- Ascending comparison of first-pick orders with `none` as `Infinity`. -/
def leFirstPick (a b : Nat × Option Nat) : Bool :=
  match a.2, b.2 with
  | some x, some y => x ≤ y
  | some _, none => true
  | none, some _ => false
  | none, none => true

/-- Display order of a side's players: indices sorted ascending by earliest
pick order (`radiantDraftOrder` / `direDraftOrder`). -/
def draftOrder (picks : List Pick) (players : List PlayerData) : List Nat :=
  let firstPicks := players.enum.map (fun ip => (ip.1, firstPickOrder picks ip.2.abilities))
  (firstPicks.insertionSort (fun a b => leFirstPick a b = true)).map Prod.fst

/-! ## Slot-type accounting -/

/-- Counts of the three slot types. -/
structure TypeCounts where
  spells : Nat
  ultimates : Nat
  heroes : Nat
deriving DecidableEq, Repr

/-- The fixed standard composition (`getNeededTypes`): 3 spells,
1 ultimate, 1 hero innate. -/
def getNeededTypes : TypeCounts := ⟨3, 1, 1⟩

/-- Classify one ability id the way `getPickedTypeCounts` branches on it
and bump the matching counter. -/
def countType (ctx : Ctx) (acc : TypeCounts) (id : Int) : TypeCounts :=
  if id < 0 then { acc with heroes := acc.heroes + 1 }
  else
    match ctx.abilityById id with
    | some ab =>
        if ab.isUltimate then { acc with ultimates := acc.ultimates + 1 }
        else { acc with spells := acc.spells + 1 }
    | none => { acc with spells := acc.spells + 1 }

/-- Type counts of a player's picked-so-far list (`getPickedTypeCounts`). -/
def getPickedTypeCounts (ctx : Ctx) (picked : List (Int × Nat)) : TypeCounts :=
  picked.foldl (fun acc p => countType ctx acc p.1) ⟨0, 0, 0⟩

/-- Needed-remaining counts, `Math.max(0, target − picked)` per type
(truncated subtraction on naturals). -/
def remainingTypes (ctx : Ctx) (picked : List (Int × Nat)) : TypeCounts :=
  let needed := getNeededTypes
  let p := getPickedTypeCounts ctx picked
  ⟨needed.spells - p.spells, needed.ultimates - p.ultimates, needed.heroes - p.heroes⟩

/-- The three slot types. -/
inductive AbilityType
  | spell
  | ultimate
  | hero
deriving DecidableEq, Repr

/-- Type of an ability id (`getAbilityType`): negative → hero innate,
else ultimate iff the static flag is set, defaulting to spell. -/
def getAbilityType (ctx : Ctx) (id : Int) : AbilityType :=
  if id < 0 then AbilityType.hero
  else
    match ctx.abilityById id with
    | some ab => if ab.isUltimate then AbilityType.ultimate else AbilityType.spell
    | none => AbilityType.spell

/-! ## Stepper state machine -/

/-- Transitions of the draft scrubber: the Start/Prev/Next/End buttons and
the slider (`seek`). -/
inductive DraftTransition
  | advance
  | retreat
  | jumpToStart
  | jumpToEnd
  | seek (k : Int)
deriving DecidableEq, Repr

/-- Modelled from the spec: the slider is an HTML range input with
`min={0}` and `max={picks.length}` (the attributes are set in
`Match.tsx`; the clamping of the emitted value to that interval is the
browser's range-input behavior, which the spec describes as
`seek(k) ↦ clamp(k, 0, N)`). -/
def sliderClamp (n : Nat) (k : Int) : Nat :=
  (max 0 (min (n : Int) k)).toNat

/-- Effect of one transition on the current step, from the `onClick` and
`onChange` handlers: `Math.min(picks.length, s+1)`, `Math.max(0, s−1)`
(truncated subtraction), 0, `picks.length`, and the clamped slider value. -/
def stepTransition (n : Nat) (t : DraftTransition) (s : Nat) : Nat :=
  match t with
  | DraftTransition.advance => min n (s + 1)
  | DraftTransition.retreat => s - 1
  | DraftTransition.jumpToStart => 0
  | DraftTransition.jumpToEnd => n
  | DraftTransition.seek k => sliderClamp n k

/-! ## Pairwise Synergy Engine -/

/-- One row of the player card's top-pairs list. -/
structure TopPairEntry where
  abilityA : Int
  abilityB : Int
  winrate : ℚ
  synergy : ℚ
deriving DecidableEq, Repr, Inhabited

/-- The player card's `topPairs`: every index-ordered pair of the player's
final abilities that has an entry in the pair-stats map (no sample-size
threshold), sorted descending by absolute synergy, top 10. -/
def topPairs (abilities : List Int) (pairsMap : List ((Int × Int) × PairStat))
    (wr : List (Int × ℚ)) : List TopPairEntry :=
  let pairs := (pairsOf abilities).filterMap (fun p =>
    match List.lookup (pairKey p.1 p.2) pairsMap with
    | some pair =>
        let wrA := getWr wr p.1
        let wrB := getWr wr p.2
        let expected := (wrA + wrB) / 2
        some { abilityA := p.1, abilityB := p.2, winrate := pair.winrate,
               synergy := pair.winrate - expected }
    | none => none)
  (pairs.insertionSort (fun x y => |y.synergy| ≤ |x.synergy|)).take 10

/-- What `key.split('-')` recovers from a canonical pair key string.  When
either component is negative, the extra minus sign makes one of the first
two split fragments empty, `parseInt` turns it into `NaN`, and every
subsequent `Set.has` test on it fails — such entries are skipped. -/
def parsePairKey (k : Int × Int) : Option (Int × Int) :=
  if 0 ≤ k.1 ∧ 0 ≤ k.2 then some k else none

/-- One row of the best-available-pairs tables. -/
structure AvailPairEntry where
  abilityA : Int
  abilityB : Int
  winrate : ℚ
  synergy : ℚ
  numPicks : Nat
deriving DecidableEq, Repr, Inhabited

/-- The candidate an entry of the pair-stats map contributes to
`bestAvailablePairs` at step `s`.  The leading guard is the key parse of
`parsePairKey`: when either id is negative the split/parseInt round trip
yields `NaN` and the entry is skipped.  Both ids must then be in the pool
and unpicked, and the pair must have at least 10 picks. -/
def availPairCandidate (ctx : Ctx) (s : Nat) (e : (Int × Int) × PairStat) :
    Option AvailPairEntry :=
  if 0 ≤ e.1.1 ∧ 0 ≤ e.1.2 then
    if e.1.1 ∈ allPoolIds ctx ∧ e.1.2 ∈ allPoolIds ctx
        ∧ e.1.1 ∉ pickedIds ctx s ∧ e.1.2 ∉ pickedIds ctx s
        ∧ 10 ≤ e.2.numPicks then
      some { abilityA := e.1.1, abilityB := e.1.2, winrate := e.2.winrate,
             synergy := e.2.winrate - (getWr ctx.abilityWinrates e.1.1
               + getWr ctx.abilityWinrates e.1.2) / 2,
             numPicks := e.2.numPicks }
    else none
  else none

/-- Best unpicked ability pairs at step `s`: qualifying map entries sorted
descending by pair win rate, top 10. -/
def bestAvailablePairs (ctx : Ctx) (s : Nat) : List AvailPairEntry :=
  ((ctx.pairsMap.filterMap (availPairCandidate ctx s)).insertionSort
    (fun x y => y.winrate ≤ x.winrate)).take 10

/-- Hero id owning an ability: the magnitude for hero innates, otherwise
the static `ownerHeroId` (defaulting to `null`). -/
def getHeroIdForAbility (ctx : Ctx) (id : Int) : Option Int :=
  if id < 0 then some |id| else (ctx.abilityById id).bind AbilityData.ownerHeroId

/-- The candidate a map entry contributes to the different-heroes variant:
the `bestAvailablePairs` guards plus both owner heroes known and distinct. -/
def availPairCandidateDiffHeroes (ctx : Ctx) (s : Nat) (e : (Int × Int) × PairStat) :
    Option AvailPairEntry :=
  match availPairCandidate ctx s e with
  | none => none
  | some entry =>
      match getHeroIdForAbility ctx entry.abilityA, getHeroIdForAbility ctx entry.abilityB with
      | some ha, some hb => if ha = hb then none else some entry
      | _, _ => none

/-- Best unpicked ability pairs from different heroes, sorted descending by
win rate, top 10. -/
def bestAvailablePairsDiffHeroes (ctx : Ctx) (s : Nat) : List AvailPairEntry :=
  ((ctx.pairsMap.filterMap (availPairCandidateDiffHeroes ctx s)).insertionSort
    (fun x y => y.winrate ≤ x.winrate)).take 10

/-- One entry of a player's synergy-suggestion list. -/
structure SynEntry where
  poolAbilityId : Int
  winrate : ℚ
  synergy : ℚ
deriving DecidableEq, Repr, Inhabited

/-- Merge one candidate into the accumulated suggestion list the way the
source's `find`-then-mutate does: update the first entry with the same
pool ability if the new synergy is strictly better, otherwise append. -/
def upsertSynergy : List SynEntry → SynEntry → List SynEntry
  | [], e => [e]
  | x :: xs, e =>
      if x.poolAbilityId = e.poolAbilityId then
        if e.synergy > x.synergy then e :: xs else x :: xs
      else x :: upsertSynergy xs e

/-- The candidate one pair-stats entry contributes to a player's synergy
suggestions: one side of the pair must be an ability the player already
picked and the other an unpicked pool ability (`!poolId` also rejects the
id 0, which is falsy in JavaScript), the pair must have at least 10
picks, and the pool ability's slot type must still be needed. -/
def mkSynergySuggestion (ctx : Ctx) (rem : TypeCounts) (st : PairStat)
    (ownedId poolId : Int) : Option SynEntry :=
  if poolId = 0 then none
  else if st.numPicks < 10 then none
  else if (getAbilityType ctx poolId = AbilityType.spell ∧ rem.spells = 0)
      ∨ (getAbilityType ctx poolId = AbilityType.ultimate ∧ rem.ultimates = 0)
      ∨ (getAbilityType ctx poolId = AbilityType.hero ∧ rem.heroes = 0) then none
  else
    some { poolAbilityId := poolId, winrate := st.winrate,
           synergy := st.winrate - (getWr ctx.abilityWinrates ownedId
             + getWr ctx.abilityWinrates poolId) / 2 }

def synergyCandidate (ctx : Ctx) (s : Nat) (ownedIds : List Int) (rem : TypeCounts)
    (e : (Int × Int) × PairStat) : Option SynEntry :=
  if 0 ≤ e.1.1 ∧ 0 ≤ e.1.2 then
    if e.1.1 ∈ ownedIds ∧ e.1.2 ∉ pickedIds ctx s ∧ e.1.2 ∈ allPoolIds ctx then
      mkSynergySuggestion ctx rem e.2 e.1.1 e.1.2
    else if e.1.2 ∈ ownedIds ∧ e.1.1 ∉ pickedIds ctx s ∧ e.1.1 ∈ allPoolIds ctx then
      mkSynergySuggestion ctx rem e.2 e.1.2 e.1.1
    else none
  else none

/-- Per-player synergy suggestions (`getPlayerSynergies`): fold the pair
map through the candidate/upsert merge, keep strictly positive synergy,
sort descending by synergy. -/
def getPlayerSynergies (ctx : Ctx) (s : Nat) (side : Side) (i : Nat) : List SynEntry :=
  let pickedAbilities := playerPickedAbilities ctx s (side, i)
  let rem := remainingTypes ctx pickedAbilities
  let ownedIds := pickedAbilities.map Prod.fst
  if ownedIds = [] then []
  else
    let merged := ctx.pairsMap.foldl (fun acc e =>
      match synergyCandidate ctx s ownedIds rem e with
      | none => acc
      | some c => upsertSynergy acc c) []
    (merged.filter (fun x => 0 < x.synergy)).insertionSort (fun x y => y.synergy ≤ x.synergy)

/-- Per-player best-abilities fallback (`getPlayerBestAbilities`): in-pool
unpicked abilities of a still-needed slot type, sorted descending by win
rate. -/
def getPlayerBestAbilities (ctx : Ctx) (s : Nat) (side : Side) (i : Nat) :
    List (Int × ℚ) :=
  let pickedAbilities := playerPickedAbilities ctx s (side, i)
  let rem := remainingTypes ctx pickedAbilities
  let valid := ctx.abilityWinrates.filterMap (fun e =>
    if e.1 ∈ allPoolIds ctx ∧ e.1 ∉ pickedIds ctx s then
      match getAbilityType ctx e.1 with
      | AbilityType.spell => if rem.spells = 0 then none else some e
      | AbilityType.ultimate => if rem.ultimates = 0 then none else some e
      | AbilityType.hero => if rem.heroes = 0 then none else some e
    else none)
  valid.insertionSort (fun x y => y.2 ≤ x.2)

/-- The suggestion row rendered for a player
(`renderPlayerSuggestions`): `min(synergy count, 3)` synergy entries when
any exist, then best-available abilities not already shown as synergies,
up to 5 entries in total. -/
def suggestionRow (ctx : Ctx) (s : Nat) (side : Side) (i : Nat) :
    List SynEntry × List (Int × ℚ) :=
  let syn := getPlayerSynergies ctx s side i
  let best := getPlayerBestAbilities ctx s side i
  let synToShow := if syn.length = 0 then 0 else min syn.length 3
  let shownSyn := syn.take synToShow
  let synIds := shownSyn.map SynEntry.poolAbilityId
  let filteredBest := (best.filter (fun b => b.1 ∉ synIds)).take (5 - synToShow)
  (shownSyn, filteredBest)

/-! ## Aggregate Role/Impact Analyzer -/

/-- The ten summed statistics of one aggregate-analysis row. -/
structure RoleStats where
  killsShift : ℚ
  deathsShift : ℚ
  killAssistShift : ℚ
  gpmShift : ℚ
  xpmShift : ℚ
  dmgShift : ℚ
  healingShift : ℚ
  expectedScepter : ℚ
  expectedShard : ℚ
deriving DecidableEq, Repr

/-- The zero accumulator of `computePlayerStats`. -/
def RoleStats.zero : RoleStats := ⟨0, 0, 0, 0, 0, 0, 0, 0, 0⟩

/-- One iteration of the `computePlayerStats` loop: add the ability's
shift statistics if known, then add the scepter/shard pickup rates when
the id is positive, the static lookup knows the ability, an Aghanim entry
exists, and the matching upgrade flag is set. -/
def statsStep (ctx : Ctx) (acc : RoleStats) (id : Int) : RoleStats :=
  let acc1 :=
    match List.lookup id ctx.abilityShifts with
    | some sh =>
        { acc with
          killsShift := acc.killsShift + sh.killsShift
          deathsShift := acc.deathsShift + sh.deathsShift
          killAssistShift := acc.killAssistShift + sh.killAssistShift
          gpmShift := acc.gpmShift + sh.gpmShift
          xpmShift := acc.xpmShift + sh.xpmShift
          dmgShift := acc.dmgShift + sh.dmgShift
          healingShift := acc.healingShift + sh.healingShift }
    | none => acc
  let ability := if 0 < id then ctx.abilityById id else none
  match List.lookup id ctx.abilityAghs, ability with
  | some ag, some ab =>
      let acc2 :=
        if ab.hasScepter then
          { acc1 with expectedScepter := acc1.expectedScepter + ag.scepterPickRate }
        else acc1
      if ab.hasShard then
        { acc2 with expectedShard := acc2.expectedShard + ag.shardPickRate }
      else acc2
  | _, _ => acc1

/-- Aggregate statistics of one ability list (`computePlayerStats`). -/
def computePlayerStats (ctx : Ctx) (ids : List Int) : RoleStats :=
  ids.foldl (statsStep ctx) RoleStats.zero

/-- One row of the aggregate analysis. -/
structure RoleRow where
  displayNum : Nat
  abilities : List Int
  stats : RoleStats
deriving DecidableEq, Repr

/-- The aggregate-analysis rows of one side: players in draft display
order, each row over the ability ids that player has picked up to step
`s`. -/
def roleAnalysisSide (ctx : Ctx) (s : Nat) (side : Side) (order : List Nat) :
    List RoleRow :=
  order.enum.map (fun di =>
    let ids := (playerPickedAbilities ctx s (side, di.2)).map Prod.fst
    { displayNum := di.1 + 1, abilities := ids, stats := computePlayerStats ctx ids })

/-- The Aggregate Role/Impact Analyzer (`roleAnalysis`): rows for both
sides at step `s`. -/
def roleAnalysis (ctx : Ctx) (s : Nat) : List RoleRow × List RoleRow :=
  (roleAnalysisSide ctx s Side.radiant (draftOrder ctx.picks ctx.radiant),
   roleAnalysisSide ctx s Side.dire (draftOrder ctx.picks ctx.dire))

/-! ## Log-weighted team synergy (`calculateAbilitySynergy`) -/

/-- One loop iteration of `calculateAbilitySynergy`: look the pair up,
and when it has at least 10 picks add `synergy × ln(numPicks)` to the
weighted sum and `ln(numPicks)` to the total weight. -/
noncomputable def synergyAccStep (pairsMap : List ((Int × Int) × PairStat))
    (wr : List (Int × ℚ)) (acc : ℝ × ℝ) (p : Int × Int) : ℝ × ℝ :=
  match List.lookup (pairKey p.1 p.2) pairsMap with
  | some pair =>
      if 10 ≤ pair.numPicks then
        let wrA : ℝ := (getWr wr p.1 : ℝ)
        let wrB : ℝ := (getWr wr p.2 : ℝ)
        let expected := (wrA + wrB) / 2
        let synergy := (pair.winrate : ℝ) - expected
        let weight := Real.log pair.numPicks
        (acc.1 + synergy * weight, acc.2 + weight)
      else acc
  | none => acc

/-- Team-synergy aggregate over a player's final ability list: the loop
keeps positive ids, visits index-ordered pairs, and accumulates through
`synergyAccStep`; `null` when the total weight is zero. -/
noncomputable def calculateAbilitySynergy (abilities : List Int)
    (pairsMap : List ((Int × Int) × PairStat)) (wr : List (Int × ℚ)) : Option ℝ :=
  let filtered := abilities.filter (fun id => 0 < id)
  let acc := (pairsOf filtered).foldl (synergyAccStep pairsMap wr) (0, 0)
  if acc.2 = 0 then none else some (acc.1 / acc.2)

/-- The `(synergy, weight)` contribution of one index pair per the
specification's formula: known pairs meeting the `numPicks ≥ 10`
threshold contribute `synergy = wr_pair − (wr_a + wr_b)/2` (unknown win
rates defaulting to 1/2) with `weight = ln(numPicks)`. -/
noncomputable def qualifyContrib (pairsMap : List ((Int × Int) × PairStat))
    (wr : List (Int × ℚ)) (p : Int × Int) : Option (ℝ × ℝ) :=
  match List.lookup (pairKey p.1 p.2) pairsMap with
  | some pair =>
      if 10 ≤ pair.numPicks then
        some ((pair.winrate : ℝ) - ((getWr wr p.1 : ℝ) + (getWr wr p.2 : ℝ)) / 2,
          Real.log pair.numPicks)
      else none
  | none => none

/-- The qualifying `(synergy, weight)` pairs of the specification's
formula over the positive ability ids. -/
noncomputable def qualifyingPairs (abilities : List Int)
    (pairsMap : List ((Int × Int) × PairStat)) (wr : List (Int × ℚ)) : List (ℝ × ℝ) :=
  (pairsOf (abilities.filter (fun id => 0 < id))).filterMap (qualifyContrib pairsMap wr)

/-- The specification's log-weighted mean:
`Σ(synergy_i × weight_i) / Σ(weight_i)` over the qualifying pairs,
unknown when no pair qualifies. -/
noncomputable def specLogWeightedSynergy (abilities : List Int)
    (pairsMap : List ((Int × Int) × PairStat)) (wr : List (Int × ℚ)) : Option ℝ :=
  let qs := qualifyingPairs abilities pairsMap wr
  if qs = [] then none
  else some ((qs.map (fun x => x.1 * x.2)).sum / (qs.map Prod.snd).sum)

/-! ## Theorems -/

/-- C3: `getPickingInfo` is total over pick numbers `0..N` (for the
spec's N = 50) and agrees everywhere with the specification's phase-based
snake-draft rule; in particular pick 0 is the Radiant-seat-0 sentinel,
pick 1 → (Radiant, 0), pick 10 → (Dire, 4), pick 11 → (Dire, 4) and
pick 20 → (Radiant, 0). -/
theorem getPickingInfo_follows_phase_rule :
    (∀ n : Nat, n < 51 → getPickingInfo n = pickingPhaseRule n)
    ∧ getPickingInfo 0 = (Side.radiant, 0)
    ∧ getPickingInfo 1 = (Side.radiant, 0)
    ∧ getPickingInfo 10 = (Side.dire, 4)
    ∧ getPickingInfo 11 = (Side.dire, 4)
    ∧ getPickingInfo 20 = (Side.radiant, 0) := by
  refine ⟨?_, by decide, by decide, by decide, by decide, by decide⟩
  decide

/-- Witness for C3 at the reverse-phase start, pick number 11. -/
theorem getPickingInfo_follows_phase_rule_witness :
    11 < 51 ∧ getPickingInfo 11 = pickingPhaseRule 11 :=
  ⟨by decide, getPickingInfo_follows_phase_rule.1 11 (by decide)⟩

/-- C8: every transition of the stepper keeps the step inside `[0, N]`
(naturals are never negative), each transition computes exactly the
claimed mapping, and out-of-range seeks are clamped silently. -/
theorem stepTransition_stays_in_range (n : Nat) (t : DraftTransition) (s : Nat)
    (hs : s ≤ n) :
    stepTransition n t s ≤ n
    ∧ stepTransition n DraftTransition.advance s = min n (s + 1)
    ∧ stepTransition n DraftTransition.retreat s = s - 1
    ∧ stepTransition n DraftTransition.jumpToStart s = 0
    ∧ stepTransition n DraftTransition.jumpToEnd s = n
    ∧ (∀ k : Int,
        ((stepTransition n (DraftTransition.seek k) s : Int) = max 0 (min (n : Int) k))
        ∧ (k ≤ 0 → stepTransition n (DraftTransition.seek k) s = 0)
        ∧ ((n : Int) ≤ k → stepTransition n (DraftTransition.seek k) s = n)
        ∧ (0 ≤ k → k ≤ (n : Int) →
            (stepTransition n (DraftTransition.seek k) s : Int) = k)) := by
  refine ⟨?_, rfl, rfl, rfl, rfl, fun k => ?_⟩
  · cases t <;> simp only [stepTransition, sliderClamp] <;> omega
  · simp only [stepTransition, sliderClamp]
    refine ⟨by omega, fun hk => by omega, fun hk => by omega, fun hk hk2 => by omega⟩

/-- Witness for C8 at N = 3, an in-range state and an out-of-range seek. -/
theorem stepTransition_stays_in_range_witness :
    stepTransition 3 DraftTransition.advance 2 ≤ 3
    ∧ stepTransition 3 (DraftTransition.seek 7) 2 = 3 :=
  ⟨(stepTransition_stays_in_range 3 DraftTransition.advance 2 (by decide)).1,
   ((stepTransition_stays_in_range 3 DraftTransition.advance 2 (by decide)).2.2.2.2.2 7).2.2.1
     (by decide)⟩

/-- C10: the log-weighted team synergy only looks at the positive ability
ids of its input: removing every negative (hero-innate) entry leaves the
result unchanged. -/
theorem calculateAbilitySynergy_ignores_innates (abilities : List Int)
    (pairsMap : List ((Int × Int) × PairStat)) (wr : List (Int × ℚ)) :
    calculateAbilitySynergy (abilities.filter (fun id => ¬ id < 0)) pairsMap wr
      = calculateAbilitySynergy abilities pairsMap wr := by
  have h : (abilities.filter (fun id => ¬ id < 0)).filter (fun id => (0 : Int) < id)
      = abilities.filter (fun id => (0 : Int) < id) := by
    rw [List.filter_filter]
    refine List.filter_congr (fun a _ => ?_)
    by_cases h0 : (0 : Int) < a
    · simp [h0]
      omega
    · simp [h0]
  simp only [calculateAbilitySynergy, h]

/-! ### Ownership Repair: idempotence (C4) -/

/-- Five radiant players whose ability lists were shuffled along the
4-cycle of heroes 1 → 2 → 3 → 4 → 1 (each list's hero-innate entry names
the next hero in the cycle). -/
def cycleRadiant : List PlayerData :=
  [⟨1, [-2]⟩, ⟨2, [-3]⟩, ⟨3, [-4]⟩, ⟨4, [-1]⟩, ⟨5, [-5]⟩]

/-- Five well-formed dire players. -/
def cycleDire : List PlayerData :=
  [⟨6, [-6]⟩, ⟨7, [-7]⟩, ⟨8, [-8]⟩, ⟨9, [-9]⟩, ⟨10, [-10]⟩]

/-- C4 counterexample: `fixHeroSwaps` is not idempotent.  One pass over
the 4-cycle input repairs only two of the four players, and the second
pass repairs the remaining two, so applying the repair to its own output
changes it again. -/
theorem fixHeroSwaps_not_idempotent :
    fixHeroSwaps (fixHeroSwaps cycleRadiant cycleDire).1
        (fixHeroSwaps cycleRadiant cycleDire).2
      ≠ fixHeroSwaps cycleRadiant cycleDire := by decide

/-- A player list is innate-consistent when every hero-innate (negative)
entry of a player's ability list names that player's own hero. -/
def innateConsistent (players : List PlayerData) : Prop :=
  ∀ p ∈ players, ∀ a ∈ p.abilities, a < 0 → |a| = p.hero

/-- On an innate-consistent state no index performs a swap. -/
theorem fixStep_eq_of_consistent (players : List PlayerData)
    (h : innateConsistent players) (i : Nat) : fixStep players i = players := by
  unfold fixStep
  cases hp : players.get? i with
  | none => rfl
  | some player =>
    cases hf : player.abilities.find? (fun a => a < 0) with
    | none => simp [hf]
    | some innate =>
      have hmem : player ∈ players := List.get?_mem hp
      have hneg : innate < 0 := by
        have := List.find?_some hf
        simpa using this
      have hin : innate ∈ player.abilities := List.mem_of_find?_eq_some hf
      have : |innate| = player.hero := h player hmem innate hin hneg
      simp [hf, this]

/-- C4 amended: on innate-consistent ten-player input the repair is the
identity, and in particular applying it twice yields the same output as
applying it once. -/
theorem fixHeroSwaps_id_of_consistent (radiant dire : List PlayerData)
    (h : innateConsistent (radiant ++ dire)) (h5 : radiant.length = 5) :
    fixHeroSwaps radiant dire = (radiant, dire)
    ∧ fixHeroSwaps (fixHeroSwaps radiant dire).1 (fixHeroSwaps radiant dire).2
        = fixHeroSwaps radiant dire := by
  have hfold : ∀ l : List Nat, l.foldl fixStep (radiant ++ dire) = radiant ++ dire := by
    intro l
    induction l with
    | nil => rfl
    | cons x xs ih =>
        simp only [List.foldl_cons, fixStep_eq_of_consistent (radiant ++ dire) h x, ih]
  have hid : fixHeroSwaps radiant dire = (radiant, dire) := by
    unfold fixHeroSwaps
    simp only [hfold]
    rw [← h5]
    exact congrArg₂ Prod.mk (List.take_left radiant dire) (List.drop_left radiant dire)
  exact ⟨hid, by rw [hid]; exact hid⟩

/-- Witness for C4's amended statement: a fully consistent match. -/
theorem fixHeroSwaps_id_of_consistent_witness :
    fixHeroSwaps [⟨1, [-1]⟩, ⟨2, [-2]⟩, ⟨3, [-3]⟩, ⟨4, [-4]⟩, ⟨5, [-5]⟩] cycleDire
      = ([⟨1, [-1]⟩, ⟨2, [-2]⟩, ⟨3, [-3]⟩, ⟨4, [-4]⟩, ⟨5, [-5]⟩], cycleDire) :=
  (fixHeroSwaps_id_of_consistent _ _ (by unfold innateConsistent; decide) (by decide)).1

/-! ### Aggregate Role/Impact Analyzer (C2) -/

/-- The specification's shift contract for one row: the plain sum of one
per-ability shift statistic over an ability list, unknown abilities
contributing nothing. -/
def specShiftSum (ctx : Ctx) (ids : List Int) (f : ShiftStat → ℚ) : ℚ :=
  (ids.map (fun id => ((List.lookup id ctx.abilityShifts).map f).getD 0)).sum

/-- The specification's Scepter contract for one row: sum the Scepter
pickup rates of the abilities flagged as offering the upgrade. -/
def specScepterSum (ctx : Ctx) (ids : List Int) : ℚ :=
  (ids.map (fun id =>
    match List.lookup id ctx.abilityAghs, (if 0 < id then ctx.abilityById id else none) with
    | some ag, some ab => if ab.hasScepter then ag.scepterPickRate else 0
    | _, _ => 0)).sum

/-- The specification's Shard contract for one row. -/
def specShardSum (ctx : Ctx) (ids : List Int) : ℚ :=
  (ids.map (fun id =>
    match List.lookup id ctx.abilityAghs, (if 0 < id then ctx.abilityById id else none) with
    | some ag, some ab => if ab.hasShard then ag.shardPickRate else 0
    | _, _ => 0)).sum

/-- The specification's ten summed figures for one ability list. -/
def specRoleStats (ctx : Ctx) (ids : List Int) : RoleStats :=
  { killsShift := specShiftSum ctx ids ShiftStat.killsShift
    deathsShift := specShiftSum ctx ids ShiftStat.deathsShift
    killAssistShift := specShiftSum ctx ids ShiftStat.killAssistShift
    gpmShift := specShiftSum ctx ids ShiftStat.gpmShift
    xpmShift := specShiftSum ctx ids ShiftStat.xpmShift
    dmgShift := specShiftSum ctx ids ShiftStat.dmgShift
    healingShift := specShiftSum ctx ids ShiftStat.healingShift
    expectedScepter := specScepterSum ctx ids
    expectedShard := specShardSum ctx ids }

/-- One loop iteration adds exactly one ability's contribution to every
accumulator field. -/
theorem statsStep_fields (ctx : Ctx) (acc : RoleStats) (id : Int) :
    statsStep ctx acc id =
      { killsShift := acc.killsShift + specShiftSum ctx [id] ShiftStat.killsShift
        deathsShift := acc.deathsShift + specShiftSum ctx [id] ShiftStat.deathsShift
        killAssistShift := acc.killAssistShift + specShiftSum ctx [id] ShiftStat.killAssistShift
        gpmShift := acc.gpmShift + specShiftSum ctx [id] ShiftStat.gpmShift
        xpmShift := acc.xpmShift + specShiftSum ctx [id] ShiftStat.xpmShift
        dmgShift := acc.dmgShift + specShiftSum ctx [id] ShiftStat.dmgShift
        healingShift := acc.healingShift + specShiftSum ctx [id] ShiftStat.healingShift
        expectedScepter := acc.expectedScepter + specScepterSum ctx [id]
        expectedShard := acc.expectedShard + specShardSum ctx [id] } := by
  unfold statsStep specShiftSum specScepterSum specShardSum
  cases hsh : List.lookup id ctx.abilityShifts <;>
    cases hag : List.lookup id ctx.abilityAghs <;>
      cases hab : (if 0 < id then ctx.abilityById id else none) <;>
        simp [hsh, hag, hab] <;>
          first
          | rfl
          | (rename_i ab
             cases hsc : ab.hasScepter <;> cases hshd : ab.hasShard <;> simp [hsc, hshd])

/-- The loop of `computePlayerStats`, started from any accumulator, adds
the specification's sums. -/
theorem computePlayerStats_go (ctx : Ctx) (ids : List Int) (acc : RoleStats) :
    ids.foldl (statsStep ctx) acc =
      { killsShift := acc.killsShift + specShiftSum ctx ids ShiftStat.killsShift
        deathsShift := acc.deathsShift + specShiftSum ctx ids ShiftStat.deathsShift
        killAssistShift := acc.killAssistShift + specShiftSum ctx ids ShiftStat.killAssistShift
        gpmShift := acc.gpmShift + specShiftSum ctx ids ShiftStat.gpmShift
        xpmShift := acc.xpmShift + specShiftSum ctx ids ShiftStat.xpmShift
        dmgShift := acc.dmgShift + specShiftSum ctx ids ShiftStat.dmgShift
        healingShift := acc.healingShift + specShiftSum ctx ids ShiftStat.healingShift
        expectedScepter := acc.expectedScepter + specScepterSum ctx ids
        expectedShard := acc.expectedShard + specShardSum ctx ids } := by
  induction ids generalizing acc with
  | nil => simp [specShiftSum, specScepterSum, specShardSum]
  | cons id ids ih =>
      rw [List.foldl_cons, ih, statsStep_fields]
      simp [specShiftSum, specScepterSum, specShardSum, add_assoc]

/-- `computePlayerStats` equals the specification's sums. -/
theorem computePlayerStats_eq_spec (ctx : Ctx) (ids : List Int) :
    computePlayerStats ctx ids = specRoleStats ctx ids := by
  unfold computePlayerStats specRoleStats RoleStats.zero
  rw [computePlayerStats_go]
  simp

/-- C2 amended: the Aggregate Role/Impact Analyzer computes the
specification's contract sums — shift sums plus Scepter/Shard sums
restricted to flagged abilities — but over each player's abilities picked
up to the current step index `s`, not over the final ability sets; its
result therefore varies with the Draft-State Stepper's position. -/
theorem roleAnalysis_sums_picked_at_step (ctx : Ctx) (s : Nat) :
    roleAnalysis ctx s =
      ((draftOrder ctx.picks ctx.radiant).enum.map (fun di =>
          let ids := (playerPickedAbilities ctx s (Side.radiant, di.2)).map Prod.fst
          { displayNum := di.1 + 1, abilities := ids,
            stats := specRoleStats ctx ids : RoleRow }),
        (draftOrder ctx.picks ctx.dire).enum.map (fun di =>
          let ids := (playerPickedAbilities ctx s (Side.dire, di.2)).map Prod.fst
          { displayNum := di.1 + 1, abilities := ids,
            stats := specRoleStats ctx ids : RoleRow })) := by
  unfold roleAnalysis roleAnalysisSide
  exact congrArg₂ Prod.mk
    (List.map_congr_left (fun di _ => by simp [computePlayerStats_eq_spec]))
    (List.map_congr_left (fun di _ => by simp [computePlayerStats_eq_spec]))

/-- A one-pick match for exercising the analyzer's step dependence. -/
def ctxStepDep : Ctx :=
  { picks := [⟨1, 1⟩]
    ignoredSpells := []
    radiant := [⟨7, [1]⟩, ⟨8, []⟩, ⟨9, []⟩, ⟨10, []⟩, ⟨11, []⟩]
    dire := [⟨12, []⟩, ⟨13, []⟩, ⟨14, []⟩, ⟨15, []⟩, ⟨16, []⟩]
    pairsMap := []
    abilityWinrates := []
    abilityShifts := [(1, ⟨1, 0, 0, 0, 0, 0, 0⟩)]
    abilityAghs := []
    abilityById := fun _ => none }

/-- C2 counterexample: the analyzer's output is not independent of the
stepper's current step index — at step 0 the first radiant row has no
abilities, at step 1 it has ability 1. -/
theorem roleAnalysis_depends_on_step :
    roleAnalysis ctxStepDep 0 ≠ roleAnalysis ctxStepDep 1 := by decide

/-! ### Slot-needed counts (C6) -/

/-- The counting loop classifies every picked ability into exactly one of
the three slot types, whatever the starting accumulator. -/
theorem countFold_sum (ctx : Ctx) (picked : List (Int × Nat)) (acc : TypeCounts) :
    (picked.foldl (fun a p => countType ctx a p.1) acc).spells
      + (picked.foldl (fun a p => countType ctx a p.1) acc).ultimates
      + (picked.foldl (fun a p => countType ctx a p.1) acc).heroes
      = acc.spells + acc.ultimates + acc.heroes + picked.length := by
  induction picked generalizing acc with
  | nil => simp
  | cons p ps ih =>
      simp only [List.foldl_cons]
      rw [ih]
      have hone : (countType ctx acc p.1).spells + (countType ctx acc p.1).ultimates
          + (countType ctx acc p.1).heroes
          = acc.spells + acc.ultimates + acc.heroes + 1 := by
        unfold countType
        split
        · simp
          omega
        · cases h : ctx.abilityById p.1 with
          | none =>
              simp
              omega
          | some ab => cases hu : ab.isUltimate <;> simp [hu] <;> omega
      simp only [List.length_cons]
      omega

/-- The three type counters of a picked list sum to its length. -/
theorem getPickedTypeCounts_sum (ctx : Ctx) (picked : List (Int × Nat)) :
    (getPickedTypeCounts ctx picked).spells + (getPickedTypeCounts ctx picked).ultimates
      + (getPickedTypeCounts ctx picked).heroes = picked.length := by
  unfold getPickedTypeCounts
  simpa using countFold_sum ctx picked ⟨0, 0, 0⟩

/-- C6: for every player and step the three slot-needed counts are
non-negative (they live in ℕ), and when the picked-so-far abilities
respect the standard 3/1/1 composition the counts sum to five minus the
number of abilities that player has picked. -/
theorem slotNeeds_nonneg_and_sum (ctx : Ctx) (s : Nat) (side : Side) (i : Nat)
    (h3 : (getPickedTypeCounts ctx (playerPickedAbilities ctx s (side, i))).spells ≤ 3)
    (hu : (getPickedTypeCounts ctx (playerPickedAbilities ctx s (side, i))).ultimates ≤ 1)
    (hh : (getPickedTypeCounts ctx (playerPickedAbilities ctx s (side, i))).heroes ≤ 1) :
    0 ≤ (remainingTypes ctx (playerPickedAbilities ctx s (side, i))).spells
    ∧ 0 ≤ (remainingTypes ctx (playerPickedAbilities ctx s (side, i))).ultimates
    ∧ 0 ≤ (remainingTypes ctx (playerPickedAbilities ctx s (side, i))).heroes
    ∧ (remainingTypes ctx (playerPickedAbilities ctx s (side, i))).spells
        + (remainingTypes ctx (playerPickedAbilities ctx s (side, i))).ultimates
        + (remainingTypes ctx (playerPickedAbilities ctx s (side, i))).heroes
        = 5 - (playerPickedAbilities ctx s (side, i)).length
    ∧ (playerPickedAbilities ctx s (side, i)).length ≤ 5 := by
  have hsum := getPickedTypeCounts_sum ctx (playerPickedAbilities ctx s (side, i))
  unfold remainingTypes getNeededTypes
  exact ⟨Nat.zero_le _, Nat.zero_le _, Nat.zero_le _, by simp; omega, by omega⟩

/-- Witness for C6: the one-pick match at step 1, radiant seat 0, where
the picked list is one spell and the needed counts are 2/1/1. -/
theorem slotNeeds_nonneg_and_sum_witness :
    (remainingTypes ctxStepDep (playerPickedAbilities ctxStepDep 1 (Side.radiant, 0))).spells
      + (remainingTypes ctxStepDep
          (playerPickedAbilities ctxStepDep 1 (Side.radiant, 0))).ultimates
      + (remainingTypes ctxStepDep
          (playerPickedAbilities ctxStepDep 1 (Side.radiant, 0))).heroes
      = 5 - (playerPickedAbilities ctxStepDep 1 (Side.radiant, 0)).length :=
  (slotNeeds_nonneg_and_sum ctxStepDep 1 Side.radiant 0
    (by decide) (by decide) (by decide)).2.2.2.1

/-! ### Stepper endpoints (C7) -/

/-- Association-list lookup only returns stored bindings. -/
theorem mem_of_lookup_eq_some {l : List (Int × PlayerRef)} {a : Int} {b : PlayerRef}
    (h : List.lookup a l = some b) : (a, b) ∈ l := by
  induction l with
  | nil => simp [List.lookup] at h
  | cons e l ih =>
      rw [List.lookup] at h
      by_cases he : a = e.1
      · simp [he] at h
        simp [← h, he]
      · have hbeq : (a == e.1) = false := by simpa using he
        rw [hbeq] at h
        simp [ih h]

/-- Association-list lookup finds the stored value when every binding of
the key agrees on it. -/
theorem lookup_eq_some_of_mem {l : List (Int × PlayerRef)} {a : Int} {b : PlayerRef}
    (hmem : (a, b) ∈ l) (huniq : ∀ b', (a, b') ∈ l → b' = b) :
    List.lookup a l = some b := by
  induction l with
  | nil => simp at hmem
  | cons e l ih =>
      obtain ⟨e1, e2⟩ := e
      by_cases he : a = e1
      · subst he
        have hb : e2 = b := huniq e2 (by simp)
        subst hb
        simp [List.lookup]
      · have hbeq : (a == e1) = false := by simpa using he
        rw [List.lookup, hbeq]
        rcases List.mem_cons.mp hmem with h | h
        · exact absurd (congrArg Prod.fst h) he
        · exact ih h (fun b' hb' => huniq b' (List.mem_cons_of_mem _ hb'))

/-- Membership in one side's slice of the `abilityToPlayer` insertion
sequence. -/
theorem mem_sideAssignments (players : List PlayerData) (side : Side) (id : Int)
    (ref : PlayerRef) :
    ((id, ref) ∈ players.enum.flatMap
        (fun ip => ip.2.abilities.map (fun a => (a, (side, ip.1)))))
      ↔ ∃ i p, ref = (side, i) ∧ players.get? i = some p ∧ id ∈ p.abilities := by
  simp only [List.mem_flatMap, List.mem_map, List.mem_enum_iff_get?]
  constructor
  · rintro ⟨⟨j, p⟩, hget, a, ha, heq⟩
    rw [Prod.mk.injEq] at heq
    obtain ⟨rfl, rfl⟩ := heq
    exact ⟨j, p, rfl, hget, ha⟩
  · rintro ⟨i, p, rfl, hget, ha⟩
    exact ⟨⟨i, p⟩, hget, id, ha, rfl⟩

/-- Characterization of the `abilityToPlayer` insertion sequence: a binding
`(id, ref)` is present exactly when the referenced player exists and has
`id` in their final ability list. -/
theorem mem_a2pAssignments (ctx : Ctx) (id : Int) (ref : PlayerRef) :
    (id, ref) ∈ a2pAssignments ctx
      ↔ ∃ p, playerAt ctx ref = some p ∧ id ∈ p.abilities := by
  unfold a2pAssignments
  rw [List.mem_append, mem_sideAssignments ctx.radiant Side.radiant id ref,
      mem_sideAssignments ctx.dire Side.dire id ref]
  obtain ⟨side, i⟩ := ref
  cases side
  · constructor
    · rintro (⟨j, p, heq, hget, ha⟩ | ⟨j, p, heq, hget, ha⟩)
      · rw [Prod.mk.injEq] at heq
        obtain ⟨-, rfl⟩ := heq
        exact ⟨p, hget, ha⟩
      · rw [Prod.mk.injEq] at heq
        exact absurd heq.1 (by simp)
    · rintro ⟨p, hget, ha⟩
      exact Or.inl ⟨i, p, rfl, hget, ha⟩
  · constructor
    · rintro (⟨j, p, heq, hget, ha⟩ | ⟨j, p, heq, hget, ha⟩)
      · rw [Prod.mk.injEq] at heq
        exact absurd heq.1 (by simp)
      · rw [Prod.mk.injEq] at heq
        obtain ⟨-, rfl⟩ := heq
        exact ⟨p, hget, ha⟩
    · rintro ⟨p, hget, ha⟩
      exact Or.inr ⟨i, p, rfl, hget, ha⟩

/-- The fold of `pushPick` appends, per player, exactly the picks whose
ability is assigned to that player. -/
theorem playerPicked_go (ctx : Ctx) (l : List Pick) (acc : PlayerRef → List (Int × Nat))
    (ref : PlayerRef) :
    (l.foldl (pushPick ctx) acc) ref
      = acc ref ++ (l.filter (fun pk => abilityToPlayer ctx pk.abilityId = some ref)).map
          (fun pk => (pk.abilityId, pk.pickOrder)) := by
  induction l generalizing acc with
  | nil => simp
  | cons pk l ih =>
      simp only [List.foldl_cons]
      rw [ih]
      unfold pushPick
      cases h : abilityToPlayer ctx pk.abilityId with
      | none => simp [h]
      | some r =>
          by_cases hr : r = ref
          · subst hr
            simp [h, Function.update_same]
          · simp [h, Function.update_noteq (fun hc => hr hc.symm), List.filter_cons, hr]

/-- The per-player picked list at step `s` is the assigned-to-that-player
sublist of the first `s` picks. -/
theorem playerPickedAbilities_eq_filter (ctx : Ctx) (s : Nat) (ref : PlayerRef) :
    playerPickedAbilities ctx s ref
      = ((ctx.picks.take s).filter
          (fun pk => abilityToPlayer ctx pk.abilityId = some ref)).map
          (fun pk => (pk.abilityId, pk.pickOrder)) := by
  unfold playerPickedAbilities
  rw [playerPicked_go]
  rfl

/-- C7: at step 0 every player's assigned ability list is empty, and at
step N (the full pick list) each player's assigned ability ids form
exactly their final ability set — assuming every drafted ability belongs
to (at most) one player and every final ability appears exactly once in
the pick list. -/
theorem stepper_endpoints (ctx : Ctx)
    (hdisj : ∀ e ∈ a2pAssignments ctx, ∀ e2 ∈ a2pAssignments ctx,
      e.1 = e2.1 → e.2 = e2.2)
    (hpicks : ∀ e ∈ a2pAssignments ctx,
      (ctx.picks.map Pick.abilityId).count e.1 = 1) :
    (∀ ref, playerPickedAbilities ctx 0 ref = [])
    ∧ (∀ ref p, playerAt ctx ref = some p → ∀ id,
        (id ∈ (playerPickedAbilities ctx ctx.picks.length ref).map Prod.fst
          ↔ id ∈ p.abilities)) := by
  constructor
  · intro ref
    rfl
  · intro ref p hp id
    rw [playerPickedAbilities_eq_filter, List.take_length, List.map_map]
    simp only [List.mem_map, List.mem_filter, Function.comp, decide_eq_true_eq]
    constructor
    · rintro ⟨pk, ⟨hpk, ha2p⟩, rfl⟩
      have hmem : (pk.abilityId, ref) ∈ a2pAssignments ctx :=
        List.mem_reverse.mp (mem_of_lookup_eq_some ha2p)
      obtain ⟨q, hq, hid⟩ := (mem_a2pAssignments ctx pk.abilityId ref).mp hmem
      rw [hp] at hq
      cases hq
      exact hid
    · intro hid
      have hmem : (id, ref) ∈ a2pAssignments ctx :=
        (mem_a2pAssignments ctx id ref).mpr ⟨p, hp, hid⟩
      have hcount : (ctx.picks.map Pick.abilityId).count id = 1 :=
        hpicks (id, ref) hmem
      have hpos : id ∈ ctx.picks.map Pick.abilityId := by
        rw [← List.count_pos_iff]
        omega
      obtain ⟨pk, hpk, hpkid⟩ := List.mem_map.mp hpos
      have hlook : abilityToPlayer ctx id = some ref := by
        unfold abilityToPlayer
        refine lookup_eq_some_of_mem (List.mem_reverse.mpr hmem) (fun b2 hb2 => ?_)
        exact hdisj (id, b2) (List.mem_reverse.mp hb2) (id, ref) hmem rfl
      exact ⟨pk, ⟨hpk, by rw [hpkid]; exact hlook⟩, hpkid⟩

/-- Witness for C7 on the one-pick match: at step 0 the list is empty and
at step N = 1 radiant seat 0 holds exactly their final ability 1. -/
theorem stepper_endpoints_witness :
    playerPickedAbilities ctxStepDep 0 (Side.radiant, 0) = []
    ∧ ((1 : Int) ∈ (playerPickedAbilities ctxStepDep ctxStepDep.picks.length
          (Side.radiant, 0)).map Prod.fst
        ↔ (1 : Int) ∈ (⟨7, [1]⟩ : PlayerData).abilities) :=
  ⟨(stepper_endpoints ctxStepDep (by decide) (by decide)).1 (Side.radiant, 0),
   (stepper_endpoints ctxStepDep (by decide) (by decide)).2 (Side.radiant, 0)
     ⟨7, [1]⟩ (by decide) 1⟩

/-! ### Sample-size threshold of the ranked lists (C1) -/

/-- Elements of the truncated sorted output come from the input list. -/
theorem mem_of_mem_sortTake {α : Type} {r : α → α → Prop} [DecidableRel r]
    {l : List α} {n : Nat} {x : α} (h : x ∈ (l.insertionSort r).take n) : x ∈ l :=
  (List.perm_insertionSort r l).mem_iff.mp (List.take_subset n _ h)

/-- What a successful `availPairCandidate` guarantees about its map entry
and output. -/
theorem availPairCandidate_spec {ctx : Ctx} {s : Nat} {e : (Int × Int) × PairStat}
    {x : AvailPairEntry} (h : availPairCandidate ctx s e = some x) :
    10 ≤ e.2.numPicks ∧ x.numPicks = e.2.numPicks ∧ x.winrate = e.2.winrate
      ∧ x.abilityA ∈ allPoolIds ctx ∧ x.abilityB ∈ allPoolIds ctx
      ∧ x.abilityA ∉ pickedIds ctx s ∧ x.abilityB ∉ pickedIds ctx s := by
  unfold availPairCandidate at h
  split at h
  · split at h
    · rename_i hp hcond
      rw [Option.some.injEq] at h
      subst h
      exact ⟨hcond.2.2.2.2, rfl, rfl, hcond.1, hcond.2.1, hcond.2.2.1, hcond.2.2.2.1⟩
    · exact absurd h (by simp)
  · exact absurd h (by simp)

/-- The different-heroes candidate is the plain candidate with an extra
hero-distinctness guard. -/
theorem availPairCandidateDiffHeroes_spec {ctx : Ctx} {s : Nat}
    {e : (Int × Int) × PairStat} {x : AvailPairEntry}
    (h : availPairCandidateDiffHeroes ctx s e = some x) :
    availPairCandidate ctx s e = some x := by
  unfold availPairCandidateDiffHeroes at h
  cases hbase : availPairCandidate ctx s e with
  | none => rw [hbase] at h; exact absurd h (by simp)
  | some entry =>
      rw [hbase] at h
      cases ha : getHeroIdForAbility ctx entry.abilityA with
      | none =>
          simp only [ha] at h
          exact absurd h (by simp)
      | some hA =>
          cases hb : getHeroIdForAbility ctx entry.abilityB with
          | none =>
              simp only [ha, hb] at h
              exact absurd h (by simp)
          | some hB =>
              simp only [ha, hb] at h
              split at h
              · exact absurd h (by simp)
              · rw [Option.some.injEq] at h
                rw [h]

/-- What a successful `synergyCandidate` guarantees: a qualifying map
entry pairing the pool ability with an already-picked one, an in-pool and
unpicked pool ability of a still-needed type, and the synergy formula. -/
theorem synergyCandidate_spec {ctx : Ctx} {s : Nat} {owned : List Int}
    {rem : TypeCounts} {e : (Int × Int) × PairStat} {x : SynEntry}
    (h : synergyCandidate ctx s owned rem e = some x) :
    10 ≤ e.2.numPicks ∧ x.winrate = e.2.winrate
      ∧ x.poolAbilityId ∈ allPoolIds ctx
      ∧ x.poolAbilityId ∉ pickedIds ctx s
      ∧ ¬(getAbilityType ctx x.poolAbilityId = AbilityType.spell ∧ rem.spells = 0)
      ∧ ¬(getAbilityType ctx x.poolAbilityId = AbilityType.ultimate ∧ rem.ultimates = 0)
      ∧ ¬(getAbilityType ctx x.poolAbilityId = AbilityType.hero ∧ rem.heroes = 0)
      ∧ ∃ ownedId ∈ owned,
          (e.1 = (ownedId, x.poolAbilityId) ∨ e.1 = (x.poolAbilityId, ownedId))
          ∧ x.synergy = e.2.winrate
              - (getWr ctx.abilityWinrates ownedId
                  + getWr ctx.abilityWinrates x.poolAbilityId) / 2 := by
  have hmk : ∀ ownedId poolId,
      mkSynergySuggestion ctx rem e.2 ownedId poolId = some x →
      10 ≤ e.2.numPicks ∧ x.winrate = e.2.winrate ∧ x.poolAbilityId = poolId
        ∧ ¬(getAbilityType ctx x.poolAbilityId = AbilityType.spell ∧ rem.spells = 0)
        ∧ ¬(getAbilityType ctx x.poolAbilityId = AbilityType.ultimate ∧ rem.ultimates = 0)
        ∧ ¬(getAbilityType ctx x.poolAbilityId = AbilityType.hero ∧ rem.heroes = 0)
        ∧ x.synergy = e.2.winrate - (getWr ctx.abilityWinrates ownedId
            + getWr ctx.abilityWinrates x.poolAbilityId) / 2 := by
    intro ownedId poolId hm
    unfold mkSynergySuggestion at hm
    split at hm
    · exact absurd hm (by simp)
    · split at hm
      · exact absurd hm (by simp)
      · split at hm
        · exact absurd hm (by simp)
        · rename_i hz hnp htype
          rw [Option.some.injEq] at hm
          subst hm
          push_neg at htype
          refine ⟨by omega, rfl, rfl, ?_, ?_, ?_, rfl⟩
          · intro hcase
            exact (htype.1 hcase.1).elim (by simpa using hcase.2)
          · intro hcase
            exact (htype.2.1 hcase.1).elim (by simpa using hcase.2)
          · intro hcase
            exact (htype.2.2 hcase.1).elim (by simpa using hcase.2)
  unfold synergyCandidate at h
  split at h
  · split at h
    · rename_i hp h1
      obtain ⟨h10, hwr, hpool, ht1, ht2, ht3, hsyn⟩ := hmk _ _ h
      exact ⟨h10, hwr, by rw [hpool]; exact h1.2.2, by rw [hpool]; exact h1.2.1,
        ht1, ht2, ht3, e.1.1, h1.1, Or.inl (by rw [hpool]), hsyn⟩
    · split at h
      · rename_i hp h1 h2
        obtain ⟨h10, hwr, hpool, ht1, ht2, ht3, hsyn⟩ := hmk _ _ h
        exact ⟨h10, hwr, by rw [hpool]; exact h2.2.2, by rw [hpool]; exact h2.2.1,
          ht1, ht2, ht3, e.1.2, h2.1, Or.inr (by rw [hpool]), hsyn⟩
      · exact absurd h (by simp)
  · exact absurd h (by simp)

/-- Membership after an upsert: either an old element or the candidate. -/
theorem mem_upsertSynergy {acc : List SynEntry} {c x : SynEntry}
    (h : x ∈ upsertSynergy acc c) : x ∈ acc ∨ x = c := by
  induction acc with
  | nil =>
      unfold upsertSynergy at h
      simp at h
      exact Or.inr h
  | cons y ys ih =>
      unfold upsertSynergy at h
      split at h
      · split at h
        · rcases List.mem_cons.mp h with h1 | h1
          · exact Or.inr h1
          · exact Or.inl (List.mem_cons_of_mem _ h1)
        · exact Or.inl h
      · rcases List.mem_cons.mp h with h1 | h1
        · exact Or.inl (by simp [h1])
        · rcases ih h1 with h2 | h2
          · exact Or.inl (List.mem_cons_of_mem _ h2)
          · exact Or.inr h2

/-- Every element of the candidate/upsert fold comes from the starting
accumulator or from some successful candidate of the list. -/
theorem mem_synergyFold {ctx : Ctx} {s : Nat} {owned : List Int} {rem : TypeCounts}
    (l : List ((Int × Int) × PairStat)) (acc : List SynEntry) (x : SynEntry)
    (h : x ∈ l.foldl (fun acc e =>
      match synergyCandidate ctx s owned rem e with
      | none => acc
      | some c => upsertSynergy acc c) acc) :
    x ∈ acc ∨ ∃ e ∈ l, synergyCandidate ctx s owned rem e = some x := by
  induction l generalizing acc with
  | nil => exact Or.inl h
  | cons e l ih =>
      simp only [List.foldl_cons] at h
      cases hc : synergyCandidate ctx s owned rem e with
      | none =>
          rw [hc] at h
          rcases ih _ h with h1 | ⟨e2, he2, hce⟩
          · exact Or.inl h1
          · exact Or.inr ⟨e2, List.mem_cons_of_mem _ he2, hce⟩
      | some c =>
          rw [hc] at h
          rcases ih _ h with h1 | ⟨e2, he2, hce⟩
          · rcases mem_upsertSynergy h1 with h2 | rfl
            · exact Or.inl h2
            · exact Or.inr ⟨e, List.mem_cons_self _ _, hc⟩
          · exact Or.inr ⟨e2, List.mem_cons_of_mem _ he2, hce⟩

/-- Every suggestion entry originates from a successful candidate of some
pair-map entry. -/
theorem getPlayerSynergies_provenance {ctx : Ctx} {s : Nat} {side : Side} {i : Nat}
    {x : SynEntry} (h : x ∈ getPlayerSynergies ctx s side i) :
    ∃ e ∈ ctx.pairsMap,
      synergyCandidate ctx s
        ((playerPickedAbilities ctx s (side, i)).map Prod.fst)
        (remainingTypes ctx (playerPickedAbilities ctx s (side, i))) e = some x := by
  simp only [getPlayerSynergies] at h
  split at h
  · simp at h
  · have hx : x ∈ (ctx.pairsMap.foldl (fun acc e =>
        match synergyCandidate ctx s
          ((playerPickedAbilities ctx s (side, i)).map Prod.fst)
          (remainingTypes ctx (playerPickedAbilities ctx s (side, i))) e with
        | none => acc
        | some c => upsertSynergy acc c) []).filter (fun x => 0 < x.synergy) :=
      (List.perm_insertionSort _ _).mem_iff.mp h
    have hx2 := List.mem_of_mem_filter hx
    rcases mem_synergyFold ctx.pairsMap [] x hx2 with h1 | h1
    · simp at h1
    · exact h1

/-- C1 amended: the three step-dependent ranked lists — best available
pairs, best available pairs from different heroes, and the per-player
synergy suggestions — only ever contain pairs whose map entry has
`numPicks ≥ 10`; the player card's top-pairs list is exempt (see the
counterexample) because it applies no sample-size threshold. -/
theorem rankedLists_numPicks_threshold :
    (∀ (ctx : Ctx) (s : Nat) (x : AvailPairEntry), x ∈ bestAvailablePairs ctx s →
      ∃ k st, (k, st) ∈ ctx.pairsMap ∧ st.numPicks = x.numPicks ∧ 10 ≤ st.numPicks)
    ∧ (∀ (ctx : Ctx) (s : Nat) (x : AvailPairEntry),
        x ∈ bestAvailablePairsDiffHeroes ctx s →
      ∃ k st, (k, st) ∈ ctx.pairsMap ∧ st.numPicks = x.numPicks ∧ 10 ≤ st.numPicks)
    ∧ (∀ (ctx : Ctx) (s : Nat) (side : Side) (i : Nat) (x : SynEntry),
        x ∈ getPlayerSynergies ctx s side i →
      ∃ k st, (k, st) ∈ ctx.pairsMap ∧ st.winrate = x.winrate ∧ 10 ≤ st.numPicks) := by
  refine ⟨fun ctx s x hx => ?_, fun ctx s x hx => ?_, fun ctx s side i x hx => ?_⟩
  · obtain ⟨e, he, hce⟩ := List.mem_filterMap.mp (mem_of_mem_sortTake hx)
    obtain ⟨h10, hnum, -⟩ := availPairCandidate_spec hce
    exact ⟨e.1, e.2, he, hnum.symm, h10⟩
  · obtain ⟨e, he, hce⟩ := List.mem_filterMap.mp (mem_of_mem_sortTake hx)
    obtain ⟨h10, hnum, -⟩ := availPairCandidate_spec (availPairCandidateDiffHeroes_spec hce)
    exact ⟨e.1, e.2, he, hnum.symm, h10⟩
  · obtain ⟨e, he, hce⟩ := getPlayerSynergies_provenance hx
    obtain ⟨h10, hwr, -⟩ := synergyCandidate_spec hce
    exact ⟨e.1, e.2, he, hwr.symm, h10⟩

/-- A pair-stats map holding a single pair observed only 5 times. -/
def lowSamplePairs : List ((Int × Int) × PairStat) :=
  [((1, 2), ⟨3, 5⟩)]

/-- C1 counterexample: the player card's `topPairs` list ranks the pair
(1, 2) even though its map entry has `numPicks = 5 < 10`, so the claim's
threshold does not cover that ranked output list. -/
theorem topPairs_includes_low_sample :
    (∃ x ∈ topPairs [1, 2] lowSamplePairs [], x.abilityA = 1 ∧ x.abilityB = 2)
    ∧ List.lookup (pairKey 1 2) lowSamplePairs = some ⟨3, 5⟩
    ∧ (5 : Nat) < 10 := by
  refine ⟨?_, by simp [pairKey, lowSamplePairs, List.lookup], by decide⟩
  refine ⟨(topPairs [1, 2] lowSamplePairs []).head!,
    List.head!_mem_self ?_, ?_, ?_⟩ <;>
    simp [topPairs, pairsOf, pairKey, lowSamplePairs, List.lookup, getWr,
      List.insertionSort, List.orderedInsert]

/-- Witness for C1's amended statement: a qualifying pair with 20 picks
appearing in `bestAvailablePairs` at step 0. -/
def ctxQualPair : Ctx :=
  { picks := [⟨1, 1⟩, ⟨2, 2⟩]
    ignoredSpells := []
    radiant := [⟨7, [1, 2]⟩, ⟨8, []⟩, ⟨9, []⟩, ⟨10, []⟩, ⟨11, []⟩]
    dire := [⟨12, []⟩, ⟨13, []⟩, ⟨14, []⟩, ⟨15, []⟩, ⟨16, []⟩]
    pairsMap := [((1, 2), ⟨3, 20⟩)]
    abilityWinrates := []
    abilityShifts := []
    abilityAghs := []
    abilityById := fun _ => none }

/-- Witness for C1: instantiating the theorem at the concrete context. -/
theorem rankedLists_numPicks_threshold_witness :
    ∃ k st, (k, st) ∈ ctxQualPair.pairsMap
      ∧ st.numPicks = ((bestAvailablePairs ctxQualPair 0).head!).numPicks
      ∧ 10 ≤ st.numPicks :=
  rankedLists_numPicks_threshold.1 ctxQualPair 0
    ((bestAvailablePairs ctxQualPair 0).head!)
    (List.head!_mem_self (by
      simp [bestAvailablePairs, availPairCandidate, allPoolIds, pickedIds,
        ctxQualPair, getWr, List.insertionSort, List.orderedInsert]))

/-! ### Per-player synergy suggestions (C9) -/

/-- After an upsert the candidate's pool ability is present with at least
the candidate's synergy. -/
theorem upsert_presence (acc : List SynEntry) (c : SynEntry) :
    ∃ z ∈ upsertSynergy acc c,
      z.poolAbilityId = c.poolAbilityId ∧ c.synergy ≤ z.synergy := by
  induction acc with
  | nil => exact ⟨c, by simp [upsertSynergy], rfl, le_refl _⟩
  | cons y ys ih =>
      unfold upsertSynergy
      by_cases hy : y.poolAbilityId = c.poolAbilityId
      · rw [if_pos hy]
        by_cases hs : c.synergy > y.synergy
        · rw [if_pos hs]
          exact ⟨c, by simp, rfl, le_refl _⟩
        · rw [if_neg hs]
          exact ⟨y, by simp, hy, not_lt.mp hs⟩
      · rw [if_neg hy]
        obtain ⟨z, hz, hzp, hzs⟩ := ih
        exact ⟨z, List.mem_cons_of_mem _ hz, hzp, hzs⟩

/-- An upsert never lowers the synergy recorded for a pool ability already
present. -/
theorem upsert_mono (acc : List SynEntry) (c y : SynEntry) :
    y ∈ acc → ∃ z ∈ upsertSynergy acc c,
      z.poolAbilityId = y.poolAbilityId ∧ y.synergy ≤ z.synergy := by
  induction acc with
  | nil => intro hy; simp at hy
  | cons w ws ih =>
      intro hy
      unfold upsertSynergy
      by_cases hw : w.poolAbilityId = c.poolAbilityId
      · rw [if_pos hw]
        by_cases hs : c.synergy > w.synergy
        · rw [if_pos hs]
          rcases List.mem_cons.mp hy with rfl | hy2
          · exact ⟨c, by simp, hw.symm, le_of_lt hs⟩
          · exact ⟨y, List.mem_cons_of_mem _ hy2, rfl, le_refl _⟩
        · rw [if_neg hs]
          exact ⟨y, hy, rfl, le_refl _⟩
      · rw [if_neg hw]
        rcases List.mem_cons.mp hy with rfl | hy2
        · exact ⟨y, List.mem_cons_self _ _, rfl, le_refl _⟩
        · obtain ⟨z, hz, hzp, hzs⟩ := ih hy2
          exact ⟨z, List.mem_cons_of_mem _ hz, hzp, hzs⟩

/-- An upsert keeps the pool ability ids distinct. -/
theorem upsert_nodup (acc : List SynEntry) (c : SynEntry)
    (h : (acc.map SynEntry.poolAbilityId).Nodup) :
    ((upsertSynergy acc c).map SynEntry.poolAbilityId).Nodup := by
  induction acc with
  | nil => simp [upsertSynergy]
  | cons y ys ih =>
      simp only [List.map_cons, List.nodup_cons] at h
      unfold upsertSynergy
      by_cases hy : y.poolAbilityId = c.poolAbilityId
      · rw [if_pos hy]
        by_cases hs : c.synergy > y.synergy
        · rw [if_pos hs]
          simp only [List.map_cons, List.nodup_cons]
          exact ⟨by rw [← hy]; exact h.1, h.2⟩
        · rw [if_neg hs]
          simp only [List.map_cons, List.nodup_cons]
          exact h
      · rw [if_neg hy]
        simp only [List.map_cons, List.nodup_cons]
        refine ⟨fun hmem => ?_, ih h.2⟩
        obtain ⟨x, hx, hxp⟩ := List.mem_map.mp hmem
        rcases mem_upsertSynergy hx with hx2 | rfl
        · exact h.1 (List.mem_map.mpr ⟨x, hx2, hxp⟩)
        · exact hy hxp.symm

/-- The candidate/upsert fold keeps the pool ability ids distinct. -/
theorem synergyFold_nodup (f : (Int × Int) × PairStat → Option SynEntry)
    (l : List ((Int × Int) × PairStat)) (acc : List SynEntry)
    (h : (acc.map SynEntry.poolAbilityId).Nodup) :
    (((l.foldl (fun acc e =>
        match f e with
        | none => acc
        | some c => upsertSynergy acc c) acc)).map SynEntry.poolAbilityId).Nodup := by
  induction l generalizing acc with
  | nil => exact h
  | cons e l ih =>
      simp only [List.foldl_cons]
      cases hc : f e with
      | none => exact ih _ h
      | some c => exact ih _ (upsert_nodup acc c h)

/-- A pool ability present in the accumulator survives the whole fold with
a synergy that never decreases. -/
theorem synergyFold_mono (f : (Int × Int) × PairStat → Option SynEntry)
    (l : List ((Int × Int) × PairStat)) (acc : List SynEntry) (y : SynEntry)
    (hy : y ∈ acc) :
    ∃ x ∈ l.foldl (fun acc e =>
        match f e with
        | none => acc
        | some c => upsertSynergy acc c) acc,
      x.poolAbilityId = y.poolAbilityId ∧ y.synergy ≤ x.synergy := by
  induction l generalizing acc y with
  | nil => exact ⟨y, hy, rfl, le_refl _⟩
  | cons e l ih =>
      simp only [List.foldl_cons]
      cases hc : f e with
      | none => exact ih _ _ hy
      | some c =>
          obtain ⟨z, hz, hzp, hzs⟩ := upsert_mono acc c y hy
          obtain ⟨x, hx, hxp, hxs⟩ := ih _ _ hz
          exact ⟨x, hx, hxp.trans hzp, hzs.trans hxs⟩

/-- Every element surviving the fold dominates every candidate of the
folded list that targets the same pool ability. -/
theorem synergyFold_max (f : (Int × Int) × PairStat → Option SynEntry)
    (l : List ((Int × Int) × PairStat)) (acc : List SynEntry)
    (hnd : (acc.map SynEntry.poolAbilityId).Nodup) (x : SynEntry)
    (hx : x ∈ l.foldl (fun acc e =>
        match f e with
        | none => acc
        | some c => upsertSynergy acc c) acc)
    (e : (Int × Int) × PairStat) (he : e ∈ l) (c : SynEntry) (hc : f e = some c)
    (hp : c.poolAbilityId = x.poolAbilityId) : c.synergy ≤ x.synergy := by
  induction l generalizing acc with
  | nil => simp at he
  | cons e1 l ih =>
      simp only [List.foldl_cons] at hx
      cases hc1 : f e1 with
      | none =>
          rw [hc1] at hx
          rcases List.mem_cons.mp he with rfl | he2
          · rw [hc1] at hc
            cases hc
          · exact ih _ hnd hx he2
      | some c1 =>
          rw [hc1] at hx
          have hnd2 := upsert_nodup acc c1 hnd
          rcases List.mem_cons.mp he with rfl | he2
          · rw [hc1, Option.some.injEq] at hc
            obtain ⟨z, hz, hzp, hzs⟩ := upsert_presence acc c1
            obtain ⟨x2, hx2, hx2p, hx2s⟩ := synergyFold_mono f l _ z hz
            have hxeq : x2 = x := by
              refine List.inj_on_of_nodup_map
                (synergyFold_nodup f l _ hnd2) hx2 hx ?_
              rw [hx2p, hzp, hc, hp]
            calc c.synergy = c1.synergy := by rw [hc]
              _ ≤ z.synergy := hzs
              _ ≤ x2.synergy := hx2s
              _ = x.synergy := by rw [hxeq]
          · exact ih _ hnd2 hx he2

/-- Membership in the final suggestion list: the entry is a surviving fold
element with strictly positive synergy. -/
theorem getPlayerSynergies_mem_merged {ctx : Ctx} {s : Nat} {side : Side} {i : Nat}
    {x : SynEntry} (h : x ∈ getPlayerSynergies ctx s side i) :
    0 < x.synergy
    ∧ x ∈ ctx.pairsMap.foldl (fun acc e =>
        match synergyCandidate ctx s
          ((playerPickedAbilities ctx s (side, i)).map Prod.fst)
          (remainingTypes ctx (playerPickedAbilities ctx s (side, i))) e with
        | none => acc
        | some c => upsertSynergy acc c) [] := by
  simp only [getPlayerSynergies] at h
  split at h
  · simp at h
  · have hx := (List.perm_insertionSort _ _).mem_iff.mp h
    refine ⟨?_, List.mem_of_mem_filter hx⟩
    have := List.of_mem_filter hx
    simpa using this

/-- C9: every per-player synergy suggestion is an in-pool, unpicked
ability of a still-needed slot type, scored from a pairing with at least
10 picks against an ability the player already picked, keeping only the
highest-synergy pairing per candidate; the list keeps only strictly
positive synergies and is sorted descending by synergy; the rendered row
shows `min(synergies, 3)` synergy entries plus best-available fillers up
to 5 in total, never repeating a shown synergy ability. -/
theorem playerSynergySuggestions_spec (ctx : Ctx) (s : Nat) (side : Side) (i : Nat) :
    (∀ x ∈ getPlayerSynergies ctx s side i,
      x.poolAbilityId ∈ allPoolIds ctx
      ∧ x.poolAbilityId ∉ pickedIds ctx s
      ∧ 0 < x.synergy
      ∧ ¬(getAbilityType ctx x.poolAbilityId = AbilityType.spell
          ∧ (remainingTypes ctx (playerPickedAbilities ctx s (side, i))).spells = 0)
      ∧ ¬(getAbilityType ctx x.poolAbilityId = AbilityType.ultimate
          ∧ (remainingTypes ctx (playerPickedAbilities ctx s (side, i))).ultimates = 0)
      ∧ ¬(getAbilityType ctx x.poolAbilityId = AbilityType.hero
          ∧ (remainingTypes ctx (playerPickedAbilities ctx s (side, i))).heroes = 0)
      ∧ (∃ e ∈ ctx.pairsMap, 10 ≤ e.2.numPicks
          ∧ ∃ ownedId ∈ (playerPickedAbilities ctx s (side, i)).map Prod.fst,
              e.1 = (ownedId, x.poolAbilityId) ∨ e.1 = (x.poolAbilityId, ownedId))
      ∧ (∀ e ∈ ctx.pairsMap, ∀ c,
          synergyCandidate ctx s
            ((playerPickedAbilities ctx s (side, i)).map Prod.fst)
            (remainingTypes ctx (playerPickedAbilities ctx s (side, i))) e = some c →
          c.poolAbilityId = x.poolAbilityId → c.synergy ≤ x.synergy))
    ∧ List.Sorted (fun a b => b.synergy ≤ a.synergy) (getPlayerSynergies ctx s side i)
    ∧ (suggestionRow ctx s side i).1.length
        = min (getPlayerSynergies ctx s side i).length 3
    ∧ (suggestionRow ctx s side i).1.length + (suggestionRow ctx s side i).2.length ≤ 5
    ∧ (∀ b ∈ (suggestionRow ctx s side i).2,
        (∀ x ∈ (suggestionRow ctx s side i).1, x.poolAbilityId ≠ b.1)
        ∧ b ∈ getPlayerBestAbilities ctx s side i) := by
  refine ⟨fun x hx => ?_, ?_, ?_, ?_, fun b hb => ?_⟩
  · obtain ⟨hpos, hmerged⟩ := getPlayerSynergies_mem_merged hx
    obtain ⟨e, he, hce⟩ := getPlayerSynergies_provenance hx
    obtain ⟨h10, hwr, hpool, hpick, ht1, ht2, ht3, ownedId, hown, hkey, hsyn⟩ :=
      synergyCandidate_spec hce
    refine ⟨hpool, hpick, hpos, ht1, ht2, ht3,
      ⟨e, he, h10, ownedId, hown, hkey⟩, fun e2 he2 c hc hcp => ?_⟩
    exact synergyFold_max _ ctx.pairsMap [] (by simp) x hmerged e2 he2 c hc hcp
  · haveI : IsTotal SynEntry (fun a b => b.synergy ≤ a.synergy) :=
      ⟨fun a b => le_total b.synergy a.synergy⟩
    haveI : IsTrans SynEntry (fun a b => b.synergy ≤ a.synergy) :=
      ⟨fun a b c hab hbc => le_trans hbc hab⟩
    simp only [getPlayerSynergies]
    split
    · exact List.sorted_nil
    · exact List.sorted_insertionSort _ _
  · simp only [suggestionRow, List.length_take]
    split <;> omega
  · simp only [suggestionRow, List.length_take]
    split <;> omega
  · simp only [suggestionRow] at hb
    refine ⟨?_, List.mem_of_mem_filter (List.mem_of_mem_take hb)⟩
    intro x hx hxp
    have hni := List.of_mem_filter (List.mem_of_mem_take hb)
    rw [decide_eq_true_eq] at hni
    simp only [suggestionRow] at hx
    exact hni (List.mem_map.mpr ⟨x, hx, hxp⟩)

/-- A one-pick match with one qualifying pool pairing, used to exercise
the suggestion machinery: radiant seat 0 picked ability 1, ability 2 is
an unpicked pool spell pairing with it at 20 observed picks. -/
def ctxSyn : Ctx :=
  { picks := [⟨1, 1⟩]
    ignoredSpells := [2]
    radiant := [⟨7, [1]⟩, ⟨8, []⟩, ⟨9, []⟩, ⟨10, []⟩, ⟨11, []⟩]
    dire := [⟨12, []⟩, ⟨13, []⟩, ⟨14, []⟩, ⟨15, []⟩, ⟨16, []⟩]
    pairsMap := [((1, 2), ⟨3, 20⟩)]
    abilityWinrates := []
    abilityShifts := []
    abilityAghs := []
    abilityById := fun _ => none }

/-- Witness for C9: the suggestion produced for radiant seat 0 at step 1
is in the pool, unpicked, and strictly positive. -/
theorem playerSynergySuggestions_spec_witness :
    ((getPlayerSynergies ctxSyn 1 Side.radiant 0).head!).poolAbilityId ∈ allPoolIds ctxSyn
    ∧ ((getPlayerSynergies ctxSyn 1 Side.radiant 0).head!).poolAbilityId
        ∉ pickedIds ctxSyn 1
    ∧ 0 < ((getPlayerSynergies ctxSyn 1 Side.radiant 0).head!).synergy :=
  have h := (playerSynergySuggestions_spec ctxSyn 1 Side.radiant 0).1
    ((getPlayerSynergies ctxSyn 1 Side.radiant 0).head!)
    (List.head!_mem_self (by
      norm_num [getPlayerSynergies, synergyCandidate, mkSynergySuggestion,
        getAbilityType, getWr, ctxSyn, playerPickedAbilities, pushPick,
        abilityToPlayer, a2pAssignments, pickedIds, allPoolIds, remainingTypes,
        getPickedTypeCounts, countType, getNeededTypes, upsertSynergy,
        List.insertionSort, List.orderedInsert, List.lookup, List.enum,
        List.enumFrom]))
  ⟨h.1, h.2.1, h.2.2.1⟩

/-! ### Log-weighted team synergy (C5) -/

/-- One accumulation step adds exactly the pair's spec contribution. -/
theorem synergyAccStep_eq (pairsMap : List ((Int × Int) × PairStat))
    (wr : List (Int × ℚ)) (acc : ℝ × ℝ) (p : Int × Int) :
    synergyAccStep pairsMap wr acc p =
      match qualifyContrib pairsMap wr p with
      | none => acc
      | some sw => (acc.1 + sw.1 * sw.2, acc.2 + sw.2) := by
  unfold synergyAccStep qualifyContrib
  cases h : List.lookup (pairKey p.1 p.2) pairsMap with
  | none => rfl
  | some pair => by_cases h10 : 10 ≤ pair.numPicks <;> simp [h10]

/-- The accumulation loop computes the two spec sums. -/
theorem synergyFoldAcc (pairsMap : List ((Int × Int) × PairStat))
    (wr : List (Int × ℚ)) (l : List (Int × Int)) (acc : ℝ × ℝ) :
    l.foldl (synergyAccStep pairsMap wr) acc
      = (acc.1 + ((l.filterMap (qualifyContrib pairsMap wr)).map
            (fun x => x.1 * x.2)).sum,
         acc.2 + ((l.filterMap (qualifyContrib pairsMap wr)).map Prod.snd).sum) := by
  induction l generalizing acc with
  | nil => simp
  | cons p l ih =>
      rw [List.foldl_cons, synergyAccStep_eq]
      cases h : qualifyContrib pairsMap wr p with
      | none =>
          rw [ih]
          simp [List.filterMap_cons, h]
      | some sw =>
          rw [ih]
          simp [List.filterMap_cons, h, add_assoc]

/-- Every qualifying weight is a logarithm of a sample size of at least
10, hence strictly positive. -/
theorem qualifyContrib_weight_pos {pairsMap : List ((Int × Int) × PairStat)}
    {wr : List (Int × ℚ)} {p : Int × Int} {sw : ℝ × ℝ}
    (h : qualifyContrib pairsMap wr p = some sw) : 0 < sw.2 := by
  unfold qualifyContrib at h
  cases hl : List.lookup (pairKey p.1 p.2) pairsMap with
  | none => rw [hl] at h; cases h
  | some pair =>
      rw [hl] at h
      by_cases h10 : 10 ≤ pair.numPicks
      · simp only [if_pos h10] at h
        rw [Option.some.injEq] at h
        subst h
        exact Real.log_pos (by exact_mod_cast lt_of_lt_of_le (by norm_num) h10)
      · simp only [if_neg h10] at h
        cases h

/-- A concrete pair-stats map realizing the spec's example: a pair seen
100 times with synergy +1/20 and a pair seen 10 times with synergy
−1/10 (all individual win rates default to 1/2). -/
def pairsC5 : List ((Int × Int) × PairStat) :=
  [((1, 2), ⟨11/20, 100⟩), ((1, 3), ⟨2/5, 10⟩)]

/-- C5: `calculateAbilitySynergy` computes exactly the specification's
log-weighted mean over the qualifying pairs of the player's positive
ability ids; it returns `null` (unknown) precisely when no pair
qualifies; and on the spec's example — synergies +1/20 at 100 picks and
−1/10 at 10 picks — the aggregate lies strictly between −1/10 and +1/20
and strictly closer to +1/20. -/
theorem calculateAbilitySynergy_spec :
    (∀ (abilities : List Int) (pairsMap : List ((Int × Int) × PairStat))
        (wr : List (Int × ℚ)),
      calculateAbilitySynergy abilities pairsMap wr
        = specLogWeightedSynergy abilities pairsMap wr)
    ∧ (∀ (abilities : List Int) (pairsMap : List ((Int × Int) × PairStat))
        (wr : List (Int × ℚ)),
      (calculateAbilitySynergy abilities pairsMap wr = none
        ↔ qualifyingPairs abilities pairsMap wr = []))
    ∧ (∃ r : ℝ, calculateAbilitySynergy [1, 2, 3] pairsC5 [] = some r
        ∧ -(1/10) < r ∧ r < 1/20 ∧ |r - 1/20| < |r - (-(1/10))|) := by
  have hsum_pos : ∀ (abilities : List Int) (pairsMap : List ((Int × Int) × PairStat))
      (wr : List (Int × ℚ)), qualifyingPairs abilities pairsMap wr ≠ [] →
      0 < ((qualifyingPairs abilities pairsMap wr).map Prod.snd).sum := by
    intro abilities pairsMap wr hne
    refine List.sum_pos _ (fun w hw => ?_) (by simpa using hne)
    obtain ⟨sw, hsw, rfl⟩ := List.mem_map.mp hw
    obtain ⟨p, -, hp⟩ := List.mem_filterMap.mp hsw
    exact qualifyContrib_weight_pos hp
  have heq : ∀ (abilities : List Int) (pairsMap : List ((Int × Int) × PairStat))
      (wr : List (Int × ℚ)),
      calculateAbilitySynergy abilities pairsMap wr
        = specLogWeightedSynergy abilities pairsMap wr := by
    intro abilities pairsMap wr
    simp only [calculateAbilitySynergy, specLogWeightedSynergy, qualifyingPairs]
    rw [synergyFoldAcc]
    simp only [zero_add]
    by_cases hq : (pairsOf (abilities.filter fun id => (0 : Int) < id)).filterMap
        (qualifyContrib pairsMap wr) = []
    · rw [hq]
      simp
    · have hpos := hsum_pos abilities pairsMap wr (by unfold qualifyingPairs; exact hq)
      unfold qualifyingPairs at hpos
      rw [if_neg (ne_of_gt hpos), if_neg hq]
  refine ⟨heq, fun abilities pairsMap wr => ?_, ?_⟩
  · rw [heq]
    unfold specLogWeightedSynergy
    by_cases hq : qualifyingPairs abilities pairsMap wr = []
    · simp [hq]
    · simp [hq]
  · have hqs : qualifyingPairs [1, 2, 3] pairsC5 []
        = [((1 : ℝ)/20, Real.log (100 : ℝ)), (-(1 : ℝ)/10, Real.log (10 : ℝ))] := by
      have hpairs : pairsOf ([1, 2, 3] : List Int) = [(1, 2), (1, 3), (2, 3)] := by
        decide
      have hl12 : List.lookup (pairKey 1 2) pairsC5 = some ⟨11/20, 100⟩ := rfl
      have hl13 : List.lookup (pairKey 1 3) pairsC5 = some ⟨2/5, 10⟩ := rfl
      have hl23 : List.lookup (pairKey 2 3) pairsC5 = none := rfl
      norm_num [qualifyingPairs, hpairs, qualifyContrib, hl12, hl13, hl23, getWr,
        List.filterMap_cons, List.filterMap_nil, List.lookup_nil]
    have hlog : Real.log (100 : ℝ) = 2 * Real.log (10 : ℝ) := by
      rw [show (100 : ℝ) = (10 : ℝ) ^ 2 by norm_num, Real.log_pow]
      norm_num
    refine ⟨0, ?_, by norm_num, by norm_num, by
      rw [abs_sub_comm (0 : ℝ) (1/20), abs_sub_comm (0 : ℝ)]
      norm_num
      rw [abs_of_pos (by norm_num : (0 : ℝ) < 1/20),
        abs_of_pos (by norm_num : (0 : ℝ) < 1/10)]
      norm_num⟩
    rw [heq]
    simp only [specLogWeightedSynergy, hqs]
    rw [if_neg (by simp)]
    simp only [List.map_cons, List.map_nil, List.sum_cons, List.sum_nil]
    rw [Option.some.injEq, hlog]
    have hnum : (1 : ℝ)/20 * (2 * Real.log 10) + (-(1 : ℝ)/10 * Real.log 10 + 0) = 0 := by
      ring
    rw [hnum, zero_div]

end Windrun
